import Mathlib

/-!
# Verification of the degree-preserving double edge-swap sampler

Shallow embedding of `graspologic/models/edge_swaps.py` (class `EdgeSwap`).

The Python class keeps two synchronized representations of a graph on `n`
vertices: an `n × n` adjacency matrix of nonnegative integer weights and a
positional edge list holding one `(row, col)` pair per nonzero matrix cell.
`swap_edges(n_swaps, seed)` runs `n_swaps` trials; each trial draws two
distinct edge-list indices from numpy's global random source, applies four
rejection checks and, on acceptance, rewires the drawn edges in place.

Modelling decisions:
* the adjacency matrix is a total function `Fin n → Fin n → Nat` (numpy
  integer entries; construction restricts them to `{0, 1}`);
* the two indices drawn by `np.random.choice(len(edge_list), size=2,
  replace=False)` in each trial are threaded in explicitly as a list of
  `Nat × Nat` draws — the code never seeds numpy's global generator (it
  calls `np.random.randint(seed)`, which merely samples a number below
  `seed`), so the draw stream is an independent ambient input, not a
  function of `seed`;
* the two ways a call can raise `ValueError` inside `swap_edges` are made
  explicit: `np.random.randint(seed)` requires `seed ≥ 1`, and
  `np.random.choice(m, size=2, replace=False)` requires `m ≥ 2`.
-/

namespace EdgeSwap

/-- The Adjacency Structure: an `n × n` matrix of natural-number weights,
mirroring the `adjacency` attribute (`np.ndarray` of shape `(n, n)`). -/
abbrev Adj (n : Nat) := Fin n → Fin n → Nat

/-- An Edge List entry: a `(row, col)` pair of vertex indices. -/
abbrev Edge (n : Nat) := Fin n × Fin n

/-- A point write `adjacency[u, v] = w`. -/
def write {n : Nat} (A : Adj n) (u v : Fin n) (w : Nat) : Adj n :=
  fun a b => if a = u ∧ b = v then w else A a b

/-- `_do_setup`: `row_inds, col_inds = np.nonzero(self.adjacency)` followed by
`np.stack((row_inds, col_inds)).T` — the nonzero cells in row-major order. -/
def do_setup {n : Nat} (A : Adj n) : List (Edge n) :=
  (List.finRange n).flatMap fun a =>
    (List.finRange n).filterMap fun b => if A a b ≠ 0 then some (a, b) else none

/-- Outcome of `EdgeSwap.__init__`: either a constructed state or one of the
two `check_argument` failures (spec names: `InvalidInputError` for a weighted
or loopy input, `InsufficientEdgesError` for too few edges). -/
inductive BuildResult (n : Nat) where
  | ok : Adj n → List (Edge n) → BuildResult n
  | invalidInput : BuildResult n
  | insufficientEdges : BuildResult n
deriving DecidableEq

/-- `EdgeSwap.__init__`: reject weighted input (`is_unweighted`, entries must
lie in `{0, 1}`), reject self-loops (`is_loopless`), build the edge list with
`_do_setup`, then run `check_argument(len(edge_list >= 2), ...)`.

Note the edge-count check embeds the source exactly: `edge_list >= 2` is an
elementwise comparison, so `len(edge_list >= 2)` is the number of rows of the
boolean array, i.e. the number of edges, and the check is falsy only when the
edge list is empty. -/
def construct {n : Nat} (A : Adj n) : BuildResult n :=
  if ¬ (∀ a b, A a b ≤ 1) then .invalidInput
  else if ¬ (∀ a, A a a = 0) then .invalidInput
  else if (do_setup A).length = 0 then .insufficientEdges
  else .ok A (do_setup A)

/-- `_edge_swap` with the two drawn edge-list indices `i, j` passed in
explicitly (`orig_inds = np.random.choice(len(edge_list), size=2,
replace=False)` guarantees `i ≠ j` and both below `edge_list.length`; the
out-of-range fallback branch is never reached under those guarantees). -/
def edge_swap {n : Nat} (A : Adj n) (E : List (Edge n)) (i j : Nat) :
    Adj n × List (Edge n) :=
  match E[i]?, E[j]? with
  | some (u, v), some (x, y) =>
    -- ensures no initial loops
    if u = v ∨ x = y then (A, E)
    -- ensures no loops after swap (must be swap on 4 distinct nodes)
    else if u = x ∨ v = y then (A, E)
    -- ensures no initial multigraphs
    else if A u v > 1 ∨ A x y > 1 then (A, E)
    -- ensures no multigraphs after swap
    else if A u x ≥ 1 ∨ A v y ≥ 1 then (A, E)
    else
      (write (write (write (write A u v 0) x y 0) u x 1) v y 1,
       (E.set i (u, x)).set j (v, y))
  | _, _ => (A, E)

/-- A full graph state: adjacency matrix plus edge list. -/
abbrev State (n : Nat) := Adj n × List (Edge n)

/-- The trial loop of `swap_edges`, with the per-trial index draws made
explicit: one `(i, j)` pair of edge-list indices per trial. -/
def swap_edges {n : Nat} (s : State n) (draws : List (Nat × Nat)) : State n :=
  draws.foldl (fun t d => edge_swap t.1 t.2 d.1 d.2) s

/-- Outcome of a `swap_edges` call: the returned pair, or a raised
`ValueError`. -/
inductive RunResult (n : Nat) where
  | ok : Adj n → List (Edge n) → RunResult n
  | valueError : RunResult n
deriving DecidableEq

/-- `swap_edges(n_swaps, seed)`.  The call first runs
`np.random.randint(seed)`, which raises `ValueError` unless `seed ≥ 1`
(the code never seeds the generator with `seed`); then each of the `n_swaps`
trials calls `np.random.choice(len(edge_list), size=2, replace=False)`, which
raises `ValueError` when the edge list has fewer than two entries (the edge
list's length never changes, so this is decided on the first trial).
`draws` is the ambient stream of index pairs produced by numpy's global
generator. -/
def swap_edges_run {n : Nat} (s : State n) (n_swaps : Nat) (seed : Int)
    (draws : List (Nat × Nat)) : RunResult n :=
  if seed ≤ 0 then .valueError
  else if 1 ≤ n_swaps ∧ s.2.length < 2 then .valueError
  else .ok (swap_edges s (draws.take n_swaps)).1 (swap_edges s (draws.take n_swaps)).2

/-- The draw guarantees provided by `np.random.choice(len, size=2,
replace=False)`: two distinct indices below `len`. -/
def validDraws (len : Nat) (draws : List (Nat × Nat)) : Prop :=
  ∀ d ∈ draws, d.1 < len ∧ d.2 < len ∧ d.1 ≠ d.2

instance (len : Nat) (draws : List (Nat × Nat)) : Decidable (validDraws len draws) := by
  unfold validDraws
  infer_instance

/-- Simplicity of the adjacency matrix: all entries in `{0, 1}` and an
all-zero diagonal. -/
def simpleAdj {n : Nat} (A : Adj n) : Prop :=
  (∀ a b, A a b ≤ 1) ∧ (∀ a, A a a = 0)

/-- Edge-list/matrix bijection: a pair is an edge-list entry exactly when the
corresponding adjacency cell is nonzero. -/
def edgesMatch {n : Nat} (A : Adj n) (E : List (Edge n)) : Prop :=
  ∀ p : Edge n, p ∈ E ↔ A p.1 p.2 ≠ 0

/-- The state invariant maintained by the sampler: the edge list has no
duplicate entries, it is in bijection with the nonzero adjacency cells, and
the matrix is simple. -/
def Inv {n : Nat} (A : Adj n) (E : List (Edge n)) : Prop :=
  E.Nodup ∧ edgesMatch A E ∧ simpleAdj A

instance {n : Nat} (A : Adj n) : Decidable (simpleAdj A) := by
  unfold simpleAdj; infer_instance

instance {n : Nat} (A : Adj n) (E : List (Edge n)) : Decidable (edgesMatch A E) := by
  unfold edgesMatch; infer_instance

instance {n : Nat} (A : Adj n) (E : List (Edge n)) : Decidable (Inv A E) := by
  unfold Inv; infer_instance

/-- Row sum (`np.sum(adjacency[a, :])`) of vertex `a`. -/
def rowSum {n : Nat} (A : Adj n) (a : Fin n) : Nat := ∑ b, A a b

/-- Column sum (`np.sum(adjacency[:, a])`) of vertex `a`. -/
def colSum {n : Nat} (A : Adj n) (a : Fin n) : Nat := ∑ b, A b a

/-- Total degree of vertex `a`: row sum plus column sum. -/
def totalDegree {n : Nat} (A : Adj n) (a : Fin n) : Nat := rowSum A a + colSum A a

/-- The row-sum (degree) vector `adjacency.sum(axis=1)`. -/
def rowSums {n : Nat} (A : Adj n) : List Nat := (List.finRange n).map (rowSum A)

/-- The 4-cycle `0 - 1 - 2 - 3 - 0`, stored symmetrically (`§8`'s concrete
scenario). -/
def fourCycleA : Adj 4 := fun a b =>
  if (a = 0 ∧ b = 1) ∨ (a = 1 ∧ b = 0) ∨ (a = 1 ∧ b = 2) ∨ (a = 2 ∧ b = 1) ∨
     (a = 2 ∧ b = 3) ∨ (a = 3 ∧ b = 2) ∨ (a = 3 ∧ b = 0) ∨ (a = 0 ∧ b = 3)
  then 1 else 0

/-- The edge list `_do_setup` builds for the 4-cycle. -/
def fourCycleE : List (Edge 4) := do_setup fourCycleA

/-- A matrix with a single nonzero cell `(0, 1)` — one edge. -/
def singleEdgeA : Adj 2 := fun a b => if a = 0 ∧ b = 1 then 1 else 0

/-- The 4-vertex path `0 - 1 - 2`, stored symmetrically (the spec's
rejection-safety graph with edges `(0,1), (1,0), (1,2), (2,1)`). -/
def pathA : Adj 4 := fun a b =>
  if (a = 0 ∧ b = 1) ∨ (a = 1 ∧ b = 0) ∨ (a = 1 ∧ b = 2) ∨ (a = 2 ∧ b = 1)
  then 1 else 0

example : fourCycleE = [(0, 1), (0, 3), (1, 0), (1, 2), (2, 1), (2, 3), (3, 0), (3, 2)] := by
  decide

example : rowSums fourCycleA = [2, 2, 2, 2] := by decide

example : rowSums (edge_swap fourCycleA fourCycleE 0 5).1 = [2, 3, 1, 2] := by decide

example : construct singleEdgeA = .ok singleEdgeA [(0, 1)] := by decide

/-! ## Basic facts about `write` and the branches of `_edge_swap` -/

/-- Pointwise description of the four-cell update performed by an accepted
swap (the writes happen in source order, later writes shadowing earlier
ones). -/
theorem write_quad_apply {n : Nat} (A : Adj n) (u v x y a b : Fin n) :
    write (write (write (write A u v 0) x y 0) u x 1) v y 1 a b =
      if a = v ∧ b = y then 1
      else if a = u ∧ b = x then 1
      else if a = x ∧ b = y then 0
      else if a = u ∧ b = v then 0
      else A a b := rfl

/-- Any satisfied rejection test makes the trial return the state unchanged. -/
theorem edge_swap_rejected {n : Nat} {A : Adj n} {E : List (Edge n)} {i j : Nat}
    {u v x y : Fin n} (hIu : E[i]? = some (u, v)) (hJx : E[j]? = some (x, y))
    (hrej : u = v ∨ x = y ∨ u = x ∨ v = y ∨ 1 < A u v ∨ 1 < A x y ∨
      1 ≤ A u x ∨ 1 ≤ A v y) :
    edge_swap A E i j = (A, E) := by
  unfold edge_swap
  split
  next u' v' x' y' heq1 heq2 =>
    rw [hIu] at heq1
    rw [hJx] at heq2
    injection heq1 with h1
    injection h1 with h1a h1b
    subst h1a
    subst h1b
    injection heq2 with h2
    injection h2 with h2a h2b
    subst h2a
    subst h2b
    by_cases c1 : u = v ∨ x = y
    · rw [if_pos c1]
    rw [if_neg c1]
    by_cases c2 : u = x ∨ v = y
    · rw [if_pos c2]
    rw [if_neg c2]
    by_cases c3 : A u v > 1 ∨ A x y > 1
    · rw [if_pos c3]
    rw [if_neg c3]
    have c4 : A u x ≥ 1 ∨ A v y ≥ 1 := by tauto
    rw [if_pos c4]
  next =>
    rfl

/-- When all four tests pass, the trial rewires both representations. -/
theorem edge_swap_accepted {n : Nat} {A : Adj n} {E : List (Edge n)} {i j : Nat}
    {u v x y : Fin n} (hIu : E[i]? = some (u, v)) (hJx : E[j]? = some (x, y))
    (huv : u ≠ v) (hxy : x ≠ y) (hux : u ≠ x) (hvy : v ≠ y)
    (wuv : A u v ≤ 1) (wxy : A x y ≤ 1) (wux : A u x = 0) (wvy : A v y = 0) :
    edge_swap A E i j =
      (write (write (write (write A u v 0) x y 0) u x 1) v y 1,
       (E.set i (u, x)).set j (v, y)) := by
  unfold edge_swap
  split
  next u' v' x' y' heq1 heq2 =>
    rw [hIu] at heq1
    rw [hJx] at heq2
    injection heq1 with h1
    injection h1 with h1a h1b
    subst h1a
    subst h1b
    injection heq2 with h2
    injection h2 with h2a h2b
    subst h2a
    subst h2b
    rw [if_neg (by tauto), if_neg (by tauto), if_neg (by omega), if_neg (by omega)]
  next hfb =>
    exact absurd hIu (fun h => hfb u v x y h hJx)

/-- An out-of-range draw leaves the state unchanged (unreachable under the
guarantees of `np.random.choice`). -/
theorem edge_swap_oob {n : Nat} {A : Adj n} {E : List (Edge n)} {i j : Nat}
    (h : E[i]? = none ∨ E[j]? = none) :
    edge_swap A E i j = (A, E) := by
  unfold edge_swap
  split
  next u' v' x' y' heq1 heq2 =>
    rcases h with h | h
    · rw [h] at heq1; simp at heq1
    · rw [h] at heq2; simp at heq2
  next =>
    rfl

/-- A trial never changes the length of the edge list. -/
theorem edge_swap_length {n : Nat} (A : Adj n) (E : List (Edge n)) (i j : Nat) :
    (edge_swap A E i j).2.length = E.length := by
  unfold edge_swap
  split
  next u' v' x' y' heq1 heq2 =>
    split_ifs <;> simp
  next =>
    rfl

/-- The whole trial loop never changes the length of the edge list. -/
theorem swap_edges_length {n : Nat} (draws : List (Nat × Nat)) :
    ∀ s : State n, (swap_edges s draws).2.length = s.2.length := by
  induction draws with
  | nil => intro s; rfl
  | cons d rest ih =>
    intro s
    have h1 : swap_edges s (d :: rest) = swap_edges (edge_swap s.1 s.2 d.1 d.2) rest := rfl
    rw [h1, ih (edge_swap s.1 s.2 d.1 d.2), edge_swap_length]

/-! ## List helpers for positional overwrites -/

/-- Membership after a positional overwrite. -/
theorem mem_of_mem_set {α : Type} {l : List α} {i : Nat} {a p : α}
    (h : p ∈ l.set i a) : p = a ∨ p ∈ l := by
  rw [List.mem_iff_getElem?] at h
  obtain ⟨k, hk⟩ := h
  by_cases hki : k = i
  · subst hki
    rcases Nat.lt_or_ge k l.length with hlt | hge
    · rw [List.getElem?_set_self hlt] at hk
      exact Or.inl (Option.some.inj hk).symm
    · rw [List.set_eq_of_length_le hge] at hk
      exact Or.inr (List.mem_iff_getElem?.2 ⟨k, hk⟩)
  · rw [List.getElem?_set_ne (fun h => hki h.symm)] at hk
    exact Or.inr (List.mem_iff_getElem?.2 ⟨k, hk⟩)

/-- Overwriting a position with a fresh element keeps the list duplicate-free. -/
theorem nodup_set_of_not_mem {α : Type} {l : List α} {i : Nat} {a : α}
    (hnd : l.Nodup) (ha : a ∉ l) : (l.set i a).Nodup := by
  rw [List.nodup_iff_getElem?_ne_getElem?] at hnd ⊢
  intro k m hkm hmlen heq
  rw [List.length_set] at hmlen
  by_cases hki : k = i
  · subst hki
    rw [List.getElem?_set_self (Nat.lt_trans hkm hmlen),
      List.getElem?_set_ne (by omega)] at heq
    exact ha (List.mem_iff_getElem?.2 ⟨m, heq.symm⟩)
  · by_cases hmi : m = i
    · subst hmi
      rw [List.getElem?_set_self hmlen, List.getElem?_set_ne (by omega)] at heq
      exact ha (List.mem_iff_getElem?.2 ⟨k, heq⟩)
    · rw [List.getElem?_set_ne (by omega), List.getElem?_set_ne (by omega)] at heq
      exact hnd k m hkm hmlen heq

/-- Reading back positions after the double overwrite of an accepted swap. -/
theorem set_set_getElem? {α : Type} (l : List α) (i j : Nat) (a b : α)
    (hij : i ≠ j) (hi : i < l.length) (hj : j < l.length) (k : Nat) :
    ((l.set i a).set j b)[k]? =
      if k = j then some b else if k = i then some a else l[k]? := by
  by_cases hkj : k = j
  · subst hkj
    rw [if_pos rfl, List.getElem?_set_self (by simpa using hj)]
  · rw [if_neg hkj, List.getElem?_set_ne (fun h => hkj h.symm)]
    by_cases hki : k = i
    · subst hki
      rw [if_pos rfl, List.getElem?_set_self hi]
    · rw [if_neg hki, List.getElem?_set_ne (fun h => hki h.symm)]

/-- Positional indices into a duplicate-free list are determined by the
element stored there. -/
theorem nodup_getElem?_inj {α : Type} {l : List α} (hnd : l.Nodup) {k m : Nat}
    {p : α} (hk : l[k]? = some p) (hm : l[m]? = some p) : k = m := by
  have hklen : k < l.length := by
    by_contra h
    rw [List.getElem?_eq_none (by omega)] at hk
    cases hk
  have hmlen : m < l.length := by
    by_contra h
    rw [List.getElem?_eq_none (by omega)] at hm
    cases hm
  rw [List.getElem?_eq_getElem hklen] at hk
  rw [List.getElem?_eq_getElem hmlen] at hm
  exact (hnd.getElem_inj_iff).1 (Option.some.inj (hk.trans hm.symm))

/-- Membership in the edge list after an accepted swap's double overwrite:
the two new entries appear, the two overwritten entries disappear, and
everything else is untouched. -/
theorem mem_set_set_iff {α : Type} {l : List α} {i j : Nat} {a b pI pJ : α}
    (hij : i ≠ j) (hnd : l.Nodup)
    (hpI : l[i]? = some pI) (hpJ : l[j]? = some pJ) (p : α) :
    p ∈ (l.set i a).set j b ↔
      p = a ∨ p = b ∨ (p ∈ l ∧ p ≠ pI ∧ p ≠ pJ) := by
  have hi : i < l.length := by
    by_contra h
    rw [List.getElem?_eq_none (by omega)] at hpI
    cases hpI
  have hj : j < l.length := by
    by_contra h
    rw [List.getElem?_eq_none (by omega)] at hpJ
    cases hpJ
  constructor
  · intro h
    obtain ⟨k, hk⟩ := List.mem_iff_getElem?.1 h
    rw [set_set_getElem? l i j a b hij hi hj] at hk
    split_ifs at hk with h1 h2
    · exact Or.inr (Or.inl (Option.some.inj hk).symm)
    · exact Or.inl (Option.some.inj hk).symm
    · refine Or.inr (Or.inr ⟨List.mem_iff_getElem?.2 ⟨k, hk⟩, ?_, ?_⟩)
      · intro hpi
        subst hpi
        exact h2 (nodup_getElem?_inj hnd hk hpI)
      · intro hpj
        subst hpj
        exact h1 (nodup_getElem?_inj hnd hk hpJ)
  · intro h
    rcases h with rfl | rfl | ⟨hmem, hne1, hne2⟩
    · refine List.mem_iff_getElem?.2 ⟨i, ?_⟩
      rw [set_set_getElem? l i j p b hij hi hj, if_neg hij, if_pos rfl]
    · refine List.mem_iff_getElem?.2 ⟨j, ?_⟩
      rw [set_set_getElem? l i j a p hij hi hj, if_pos rfl]
    · obtain ⟨k, hk⟩ := List.mem_iff_getElem?.1 hmem
      refine List.mem_iff_getElem?.2 ⟨k, ?_⟩
      have hki : k ≠ i := fun h => hne1 (by rw [h] at hk; exact Option.some.inj (hk.symm.trans hpI))
      have hkj : k ≠ j := fun h => hne2 (by rw [h] at hk; exact Option.some.inj (hk.symm.trans hpJ))
      rw [set_set_getElem? l i j a b hij hi hj, if_neg hkj, if_neg hki]
      exact hk

/-! ## Construction lemmas -/

/-- `_do_setup` lists exactly the nonzero cells. -/
theorem mem_do_setup {n : Nat} (A : Adj n) (p : Edge n) :
    p ∈ do_setup A ↔ A p.1 p.2 ≠ 0 := by
  obtain ⟨a, b⟩ := p
  simp only [do_setup, List.mem_flatMap, List.mem_filterMap, List.mem_finRange,
    true_and]
  constructor
  · rintro ⟨a', b', hb⟩
    split_ifs at hb with hw
    injection hb with hb'
    injection hb' with hba hbb
    subst hba
    subst hbb
    exact hw
  · intro h
    exact ⟨a, b, by rw [if_pos h]⟩

/-- `_do_setup` never lists a cell twice. -/
theorem nodup_do_setup {n : Nat} (A : Adj n) : (do_setup A).Nodup := by
  unfold do_setup
  rw [List.nodup_flatMap]
  constructor
  · intro a _
    refine List.Nodup.filterMap ?_ (List.nodup_finRange n)
    intro b b' p hb hb'
    rw [Option.mem_def] at hb hb'
    split_ifs at hb with hw1
    split_ifs at hb' with hw2
    have e3 := (Option.some.inj hb).trans (Option.some.inj hb').symm
    exact (Prod.ext_iff.1 e3).2
  · refine List.Pairwise.imp ?_ (List.nodup_finRange n)
    intro a a' hne p hp hp'
    rw [List.mem_filterMap] at hp hp'
    obtain ⟨b, -, hb⟩ := hp
    obtain ⟨b', -, hb'⟩ := hp'
    split_ifs at hb with hw1
    split_ifs at hb' with hw2
    have e3 := (Option.some.inj hb).trans (Option.some.inj hb').symm
    exact hne (Prod.ext_iff.1 e3).1

/-- What a successful construction guarantees. -/
theorem construct_ok {n : Nat} {A A' : Adj n} {E : List (Edge n)}
    (h : construct A = .ok A' E) :
    A' = A ∧ E = do_setup A ∧ simpleAdj A ∧ E.length ≠ 0 := by
  unfold construct at h
  split_ifs at h with h1 h2 h3
  cases h
  exact ⟨rfl, rfl, ⟨h1, h2⟩, h3⟩

/-- A successfully constructed state satisfies the sampler invariant. -/
theorem construct_inv {n : Nat} {A A' : Adj n} {E : List (Edge n)}
    (h : construct A = .ok A' E) : Inv A' E := by
  obtain ⟨rfl, rfl, hs, -⟩ := construct_ok h
  exact ⟨nodup_do_setup A', mem_do_setup A', hs⟩

/-! ## Preservation of the invariant by one trial -/

/-- One trial (accepted or rejected) preserves the sampler invariant. -/
theorem edge_swap_inv {n : Nat} {A : Adj n} {E : List (Edge n)} (hInv : Inv A E)
    {i j : Nat} (hi : i < E.length) (hj : j < E.length) (hij : i ≠ j) :
    Inv (edge_swap A E i j).1 (edge_swap A E i j).2 := by
  obtain ⟨hnd, hbij, hsimple⟩ := hInv
  obtain ⟨⟨u, v⟩, hIu⟩ : ∃ p : Edge n, E[i]? = some p :=
    ⟨E[i], List.getElem?_eq_getElem hi⟩
  obtain ⟨⟨x, y⟩, hJx⟩ : ∃ p : Edge n, E[j]? = some p :=
    ⟨E[j], List.getElem?_eq_getElem hj⟩
  by_cases c1 : u = v ∨ x = y
  · rw [edge_swap_rejected hIu hJx (by tauto)]
    exact ⟨hnd, hbij, hsimple⟩
  by_cases c2 : u = x ∨ v = y
  · rw [edge_swap_rejected hIu hJx (by tauto)]
    exact ⟨hnd, hbij, hsimple⟩
  by_cases c3 : 1 < A u v ∨ 1 < A x y
  · rw [edge_swap_rejected hIu hJx (by tauto)]
    exact ⟨hnd, hbij, hsimple⟩
  by_cases c4 : 1 ≤ A u x ∨ 1 ≤ A v y
  · rw [edge_swap_rejected hIu hJx (by tauto)]
    exact ⟨hnd, hbij, hsimple⟩
  push_neg at c1 c2 c3 c4
  obtain ⟨huv, hxy⟩ := c1
  obtain ⟨hux, hvy⟩ := c2
  have wux : A u x = 0 := by omega
  have wvy : A v y = 0 := by omega
  have memuv : (u, v) ∈ E := List.mem_iff_getElem?.2 ⟨i, hIu⟩
  have memxy : (x, y) ∈ E := List.mem_iff_getElem?.2 ⟨j, hJx⟩
  have wuv0 : A u v ≠ 0 := (hbij (u, v)).1 memuv
  have wxy0 : A x y ≠ 0 := (hbij (x, y)).1 memxy
  have wuv1 : A u v = 1 := by omega
  have wxy1 : A x y = 1 := by omega
  have hvx : v ≠ x := by
    rintro rfl
    omega
  have nux : (u, x) ∉ E := fun hmem => by
    have h6 : A u x ≠ 0 := (hbij (u, x)).1 hmem
    omega
  have nvy : (v, y) ∉ E := fun hmem => by
    have h6 : A v y ≠ 0 := (hbij (v, y)).1 hmem
    omega
  have quad_ne : ∀ a b : Fin n,
      write (write (write (write A u v 0) x y 0) u x 1) v y 1 a b ≠ 0 ↔
        ((a = u ∧ b = x) ∨ (a = v ∧ b = y) ∨
          (A a b ≠ 0 ∧ ¬(a = u ∧ b = v) ∧ ¬(a = x ∧ b = y))) := by
    intro a b
    rw [write_quad_apply]
    split_ifs with d1 d2 d3 d4
    · constructor
      · intro _
        exact Or.inr (Or.inl d1)
      · intro _
        exact one_ne_zero
    · constructor
      · intro _
        exact Or.inl d2
      · intro _
        exact one_ne_zero
    · constructor
      · intro habs
        exact absurd rfl habs
      · rintro (⟨ha, hb⟩ | ⟨ha, hb⟩ | ⟨-, -, hn2⟩)
        · exact absurd (ha.symm.trans d3.1) hux
        · exact absurd (ha.symm.trans d3.1) hvx
        · exact absurd d3 hn2
    · constructor
      · intro habs
        exact absurd rfl habs
      · rintro (⟨ha, hb⟩ | ⟨ha, hb⟩ | ⟨-, hn1, -⟩)
        · exact absurd (hb.symm.trans d4.2).symm hvx
        · exact absurd (d4.1.symm.trans ha) huv
        · exact absurd d4 hn1
    · constructor
      · intro hA
        exact Or.inr (Or.inr ⟨hA, d4, d3⟩)
      · rintro (h | h | ⟨hA, -, -⟩)
        · exact absurd h d2
        · exact absurd h d1
        · exact hA
  rw [edge_swap_accepted hIu hJx huv hxy hux hvy (by omega) (by omega) wux wvy]
  refine ⟨?_, ?_, ?_⟩
  · refine nodup_set_of_not_mem (nodup_set_of_not_mem hnd nux) ?_
    intro hmem
    rcases mem_of_mem_set hmem with heq | hmem'
    · exact huv ((Prod.ext_iff.1 heq).1).symm
    · exact nvy hmem'
  · intro p
    show p ∈ (E.set i (u, x)).set j (v, y) ↔
        write (write (write (write A u v 0) x y 0) u x 1) v y 1 p.1 p.2 ≠ 0
    rw [mem_set_set_iff hij hnd hIu hJx p, quad_ne p.1 p.2, hbij p]
    exact or_congr Prod.ext_iff (or_congr Prod.ext_iff (and_congr Iff.rfl
      (and_congr (not_congr Prod.ext_iff) (not_congr Prod.ext_iff))))
  · show simpleAdj (write (write (write (write A u v 0) x y 0) u x 1) v y 1)
    constructor
    · intro a b
      rw [write_quad_apply]
      split_ifs
      · exact Nat.le_refl 1
      · exact Nat.le_refl 1
      · exact Nat.zero_le 1
      · exact Nat.zero_le 1
      · exact hsimple.1 a b
    · intro a
      rw [write_quad_apply]
      split_ifs with d1 d2 d3 d4
      · exact absurd (d1.1.symm.trans d1.2) hvy
      · exact absurd (d2.1.symm.trans d2.2) hux
      · rfl
      · rfl
      · exact hsimple.2 a

/-- The whole trial loop preserves the sampler invariant, given the index
guarantees `np.random.choice` provides on every draw. -/
theorem swap_edges_inv {n : Nat} (draws : List (Nat × Nat)) :
    ∀ (A : Adj n) (E : List (Edge n)), Inv A E → validDraws E.length draws →
      Inv (swap_edges (A, E) draws).1 (swap_edges (A, E) draws).2 := by
  induction draws with
  | nil => exact fun A E h _ => h
  | cons d rest ih =>
    intro A E h hd
    have hd0 := hd d (List.mem_cons_self d rest)
    have hstep := edge_swap_inv h hd0.1 hd0.2.1 hd0.2.2
    have hlen := edge_swap_length A E d.1 d.2
    have hrest : validDraws (edge_swap A E d.1 d.2).2.length rest := by
      rw [hlen]
      exact fun d' hd' => hd d' (List.mem_cons_of_mem d hd')
    exact ih (edge_swap A E d.1 d.2).1 (edge_swap A E d.1 d.2).2 hstep hrest

/-- One trial preserves simplicity of the adjacency matrix, with no
assumptions on the draws or the edge list at all. -/
theorem edge_swap_simple {n : Nat} {A : Adj n} {E : List (Edge n)}
    (h : simpleAdj A) (i j : Nat) : simpleAdj (edge_swap A E i j).1 := by
  unfold edge_swap
  split
  next u' v' x' y' heq1 heq2 =>
    split_ifs with c1 c2 c3 c4
    · exact h
    · exact h
    · exact h
    · exact h
    · push_neg at c1 c2
      obtain ⟨huv, hxy⟩ := c1
      obtain ⟨hux, hvy⟩ := c2
      show simpleAdj (write (write (write (write A u' v' 0) x' y' 0) u' x' 1) v' y' 1)
      constructor
      · intro a b
        rw [write_quad_apply]
        split_ifs
        · exact Nat.le_refl 1
        · exact Nat.le_refl 1
        · exact Nat.zero_le 1
        · exact Nat.zero_le 1
        · exact h.1 a b
      · intro a
        rw [write_quad_apply]
        split_ifs with d1 d2 d3 d4
        · exact absurd (d1.1.symm.trans d1.2) hvy
        · exact absurd (d2.1.symm.trans d2.2) hux
        · rfl
        · rfl
        · exact h.2 a
  next =>
    exact h

/-- The whole trial loop preserves simplicity, for arbitrary draws. -/
theorem swap_edges_simple {n : Nat} (draws : List (Nat × Nat)) :
    ∀ s : State n, simpleAdj s.1 → simpleAdj (swap_edges s draws).1 := by
  induction draws with
  | nil => exact fun s h => h
  | cons d rest ih =>
    intro s h
    exact ih (edge_swap s.1 s.2 d.1 d.2) (edge_swap_simple h d.1 d.2)

/-! ## Degree bookkeeping -/

/-- Integer-valued total degree, convenient for difference accounting. -/
def totalDegreeZ {n : Nat} (A : Adj n) (a : Fin n) : Int :=
  (∑ b, (A a b : Int)) + ∑ b, (A b a : Int)

theorem totalDegree_cast {n : Nat} (A : Adj n) (a : Fin n) :
    (totalDegree A a : Int) = totalDegreeZ A a := by
  unfold totalDegree totalDegreeZ rowSum colSum
  push_cast
  rfl

/-- Effect of one point write on a row sum. -/
theorem sum_row_write {n : Nat} (A : Adj n) (p q : Fin n) (w : Nat) (a : Fin n) :
    (∑ b, (write A p q w a b : Int)) =
      (∑ b, (A a b : Int)) + if a = p then (w : Int) - A p q else 0 := by
  by_cases hap : a = p
  · subst hap
    rw [if_pos rfl]
    have hpt : ∀ b : Fin n, (write A a q w a b : Int) =
        (A a b : Int) + if b = q then (w : Int) - A a q else 0 := by
      intro b
      by_cases hbq : b = q
      · subst hbq
        simp only [write, and_self, if_pos rfl, if_true, eq_self_iff_true, true_and]
        ring
      · simp [write, hbq]
    rw [Finset.sum_congr rfl fun b _ => hpt b, Finset.sum_add_distrib]
    simp
  · rw [if_neg hap, add_zero]
    refine Finset.sum_congr rfl fun b _ => ?_
    simp [write, hap]

/-- Effect of one point write on a column sum. -/
theorem sum_col_write {n : Nat} (A : Adj n) (p q : Fin n) (w : Nat) (a : Fin n) :
    (∑ b, (write A p q w b a : Int)) =
      (∑ b, (A b a : Int)) + if a = q then (w : Int) - A p q else 0 := by
  by_cases haq : a = q
  · subst haq
    rw [if_pos rfl]
    have hpt : ∀ b : Fin n, (write A p a w b a : Int) =
        (A b a : Int) + if b = p then (w : Int) - A p a else 0 := by
      intro b
      by_cases hbp : b = p
      · subst hbp
        simp only [write, and_self, if_pos rfl, if_true, eq_self_iff_true, true_and]
        ring
      · simp [write, hbp]
    rw [Finset.sum_congr rfl fun b _ => hpt b, Finset.sum_add_distrib]
    simp
  · rw [if_neg haq, add_zero]
    refine Finset.sum_congr rfl fun b _ => ?_
    simp [write, haq]

/-- Effect of one point write on the total degree. -/
theorem totalDegreeZ_write {n : Nat} (A : Adj n) (p q : Fin n) (w : Nat) (a : Fin n) :
    totalDegreeZ (write A p q w) a = totalDegreeZ A a +
      ((if a = p then (w : Int) - A p q else 0) +
       (if a = q then (w : Int) - A p q else 0)) := by
  unfold totalDegreeZ
  rw [sum_row_write, sum_col_write]
  ring

/-- The four-cell update of an accepted swap leaves every vertex's total
degree unchanged. -/
theorem quad_totalDegree {n : Nat} (A : Adj n) {u v x y : Fin n}
    (huv : u ≠ v) (hxy : x ≠ y) (hux : u ≠ x) (hvy : v ≠ y) (hvx : v ≠ x)
    (wuv : A u v = 1) (wxy : A x y = 1) (wux : A u x = 0) (wvy : A v y = 0)
    (a : Fin n) :
    totalDegree (write (write (write (write A u v 0) x y 0) u x 1) v y 1) a =
      totalDegree A a := by
  have e1 : write A u v 0 x y = A x y := by
    simp [write, Ne.symm hux]
  have e2 : write (write A u v 0) x y 0 u x = A u x := by
    simp [write, hux, Ne.symm hvx]
  have e3 : write (write (write A u v 0) x y 0) u x 1 v y = A v y := by
    simp [write, Ne.symm huv, hvx]
  have hz : totalDegreeZ
      (write (write (write (write A u v 0) x y 0) u x 1) v y 1) a =
      totalDegreeZ A a := by
    rw [totalDegreeZ_write, totalDegreeZ_write, totalDegreeZ_write,
      totalDegreeZ_write, e1, e2, e3, wuv, wxy, wux, wvy]
    push_cast
    split_ifs <;> ring
  exact Nat.cast_inj.1 (by rw [totalDegree_cast, totalDegree_cast, hz])

/-- One trial (accepted or rejected) preserves every vertex's total degree,
on any state satisfying the sampler invariant. -/
theorem edge_swap_totalDegree {n : Nat} {A : Adj n} {E : List (Edge n)}
    (hInv : Inv A E) {i j : Nat}
    (hi : i < E.length) (hj : j < E.length) (hij : i ≠ j) (a : Fin n) :
    totalDegree (edge_swap A E i j).1 a = totalDegree A a := by
  obtain ⟨hnd, hbij, hsimple⟩ := hInv
  obtain ⟨⟨u, v⟩, hIu⟩ : ∃ p : Edge n, E[i]? = some p :=
    ⟨E[i], List.getElem?_eq_getElem hi⟩
  obtain ⟨⟨x, y⟩, hJx⟩ : ∃ p : Edge n, E[j]? = some p :=
    ⟨E[j], List.getElem?_eq_getElem hj⟩
  by_cases c1 : u = v ∨ x = y
  · rw [edge_swap_rejected hIu hJx (by tauto)]
  by_cases c2 : u = x ∨ v = y
  · rw [edge_swap_rejected hIu hJx (by tauto)]
  by_cases c3 : 1 < A u v ∨ 1 < A x y
  · rw [edge_swap_rejected hIu hJx (by tauto)]
  by_cases c4 : 1 ≤ A u x ∨ 1 ≤ A v y
  · rw [edge_swap_rejected hIu hJx (by tauto)]
  push_neg at c1 c2 c3 c4
  obtain ⟨huv, hxy⟩ := c1
  obtain ⟨hux, hvy⟩ := c2
  have wux : A u x = 0 := by omega
  have wvy : A v y = 0 := by omega
  have memuv : (u, v) ∈ E := List.mem_iff_getElem?.2 ⟨i, hIu⟩
  have memxy : (x, y) ∈ E := List.mem_iff_getElem?.2 ⟨j, hJx⟩
  have wuv0 : A u v ≠ 0 := (hbij (u, v)).1 memuv
  have wxy0 : A x y ≠ 0 := (hbij (x, y)).1 memxy
  have wuv1 : A u v = 1 := by omega
  have wxy1 : A x y = 1 := by omega
  have hvx : v ≠ x := by
    rintro rfl
    omega
  rw [edge_swap_accepted hIu hJx huv hxy hux hvy (by omega) (by omega) wux wvy]
  exact quad_totalDegree A huv hxy hux hvy hvx wuv1 wxy1 wux wvy a

/-! ## The claims -/

/-- C1: the claim states that the row-sum (degree) vector is invariant under
`run` for every trial.  The code violates it: an accepted swap only
overwrites the four directed cells `(u,v), (x,y), (u,x), (v,y)`, so row `x`
loses one unit and row `v` gains one.  On the symmetric 4-cycle, one trial
drawing edge-list indices 0 and 5 (edges `(0,1)` and `(2,3)`) is accepted and
moves the row-sum vector from `[2,2,2,2]` to `[2,3,1,2]`, contradicting the
class's own docstring ("Degree Preserving Edge Swaps ... fixed degree
sequence"). -/
theorem C1_row_sums_changed_by_accepted_swap :
    rowSums fourCycleA = [2, 2, 2, 2] ∧
    rowSums (swap_edges (fourCycleA, fourCycleE) [(0, 5)]).1 = [2, 3, 1, 2] := by
  constructor <;> decide

/-- C2: the claim states that `swap_edges(n_swaps=k, seed=s)` is
deterministic in `s` because the pseudo-random source is initialized from
the seed once per run.  The code violates it: `swap_edges` begins with
`np.random.randint(seed)` — a *draw* of a number below `seed` — and never
calls `np.random.seed(seed)`, so every trial's index pair comes from the
ambient global generator state.  Two calls with the same seed, the same
`n_swaps` and bit-identical input states, whose ambient streams happen to
differ, return different outputs. -/
theorem C2_same_seed_same_input_different_output :
    swap_edges_run (fourCycleA, fourCycleE) 1 1234 [(0, 5)] ≠
    swap_edges_run (fourCycleA, fourCycleE) 1 1234 [(0, 2)] := by
  decide

/-- C3: the claim states that once construction succeeds, `run` never
raises for any `n_swaps` and any seed.  The code violates it twice over:
(a) a single-edge graph passes construction (see C4), after which
`np.random.choice(1, size=2, replace=False)` raises `ValueError` on the
first trial; (b) `np.random.randint(seed)` raises `ValueError` whenever
`seed ≤ 0`, even for `n_swaps = 0`. -/
theorem C3_run_raises_after_successful_construction :
    construct singleEdgeA = BuildResult.ok singleEdgeA [(0, 1)] ∧
    swap_edges_run (singleEdgeA, [(0, 1)]) 1 1234 [(0, 0)] = RunResult.valueError ∧
    swap_edges_run (fourCycleA, fourCycleE) 0 0 [] = RunResult.valueError := by
  refine ⟨by decide, by decide, by decide⟩

/-- C4: the claim states that construction fails with
`InsufficientEdgesError` whenever the edge list has fewer than 2 entries, in
particular for a single-edge matrix.  The code violates it: the check is
`check_argument(len(edge_list >= 2), ...)`, and `len` of the elementwise
boolean array `edge_list >= 2` is the number of edges, so the check is falsy
only for an *empty* edge list.  A single-edge matrix is accepted; only the
zero-edge matrix raises. -/
theorem C4_single_edge_construction_accepted :
    construct singleEdgeA = BuildResult.ok singleEdgeA [(0, 1)] ∧
    construct (fun _ _ => 0 : Adj 2) = BuildResult.insufficientEdges := by
  refine ⟨by decide, by decide⟩

/-- C5: in the state produced by construction and after every trial of the
run loop (any number of trials, i.e. any prefix of any run), the set of
`(row, col)` pairs stored in the Edge List equals exactly the set of nonzero
cells of the Adjacency Structure. -/
theorem C5_edge_list_matrix_bijection {n : Nat} (A A' : Adj n)
    (E : List (Edge n)) (hok : construct A = .ok A' E)
    (draws : List (Nat × Nat)) (hd : validDraws E.length draws) :
    edgesMatch (swap_edges (A', E) draws).1 (swap_edges (A', E) draws).2 :=
  (swap_edges_inv draws A' E (construct_inv hok) hd).2.1

theorem C5_edge_list_matrix_bijection_witness :
    construct fourCycleA = BuildResult.ok fourCycleA fourCycleE ∧
    validDraws fourCycleE.length [(0, 5)] ∧
    edgesMatch (swap_edges (fourCycleA, fourCycleE) [(0, 5)]).1
      (swap_edges (fourCycleA, fourCycleE) [(0, 5)]).2 :=
  ⟨by decide, by decide,
    C5_edge_list_matrix_bijection fourCycleA fourCycleA fourCycleE
      (by decide) [(0, 5)] (by decide)⟩

/-- C6: starting from any validly constructed state, every state reachable
by any number of trials has an all-zero diagonal and every entry in
`{0, 1}` — with no assumption at all on the drawn indices. -/
theorem C6_simplicity_invariant {n : Nat} (A A' : Adj n) (E : List (Edge n))
    (hok : construct A = .ok A' E) (draws : List (Nat × Nat)) :
    simpleAdj (swap_edges (A', E) draws).1 := by
  have hs : simpleAdj A' := by
    obtain ⟨rfl, -, hs, -⟩ := construct_ok hok
    exact hs
  exact swap_edges_simple draws (A', E) hs

theorem C6_simplicity_invariant_witness :
    construct pathA = BuildResult.ok pathA (do_setup pathA) ∧
    simpleAdj (swap_edges (pathA, do_setup pathA) [(0, 2), (0, 3), (1, 2)]).1 :=
  ⟨by decide,
    C6_simplicity_invariant pathA pathA (do_setup pathA) (by decide)
      [(0, 2), (0, 3), (1, 2)]⟩

/-- C7: whenever any of the four rejection conditions (in the source's
order: degenerate edge, endpoint collision, pre-existing multiplicity,
post-swap multiplicity) holds for the drawn edges, the trial returns the
adjacency structure and the edge list completely unchanged. -/
theorem C7_rejection_no_op {n : Nat} (A : Adj n) (E : List (Edge n))
    (i j : Nat) (u v x y : Fin n)
    (hIu : E[i]? = some (u, v)) (hJx : E[j]? = some (x, y))
    (hrej : (u = v ∨ x = y) ∨ (u = x ∨ v = y) ∨
      (A u v > 1 ∨ A x y > 1) ∨ (A u x ≥ 1 ∨ A v y ≥ 1)) :
    edge_swap A E i j = (A, E) :=
  edge_swap_rejected hIu hJx (by tauto)

theorem C7_rejection_no_op_witness :
    fourCycleE[0]? = some (0, 1) ∧ fourCycleE[2]? = some (1, 0) ∧
    (fourCycleA 0 1 ≥ 1 ∨ fourCycleA 1 0 ≥ 1) ∧
    edge_swap fourCycleA fourCycleE 0 2 = (fourCycleA, fourCycleE) :=
  ⟨by decide, by decide, by decide,
    C7_rejection_no_op fourCycleA fourCycleE 0 2 0 1 1 0 (by decide) (by decide)
      (Or.inr (Or.inr (Or.inr (by decide))))⟩

/-- C8: a trial that passes all four validity checks zeroes the cells
`(u,v)` and `(x,y)`, sets `(u,x)` and `(v,y)` to 1, overwrites edge-list
positions `i` and `j` with `(u,x)` and `(v,y)` respectively, and leaves
every other edge-list position unchanged.  (Stated on states satisfying the
sampler invariant, which holds at construction and is preserved by every
trial.) -/
theorem C8_accepted_swap_postcondition {n : Nat} (A : Adj n)
    (E : List (Edge n)) (hInv : Inv A E) (i j : Nat) (hij : i ≠ j)
    (u v x y : Fin n)
    (hIu : E[i]? = some (u, v)) (hJx : E[j]? = some (x, y))
    (h1 : ¬(u = v ∨ x = y)) (h2 : ¬(u = x ∨ v = y))
    (h3 : ¬(A u v > 1 ∨ A x y > 1)) (h4 : ¬(A u x ≥ 1 ∨ A v y ≥ 1)) :
    (edge_swap A E i j).1 u v = 0 ∧ (edge_swap A E i j).1 x y = 0 ∧
    (edge_swap A E i j).1 u x = 1 ∧ (edge_swap A E i j).1 v y = 1 ∧
    (edge_swap A E i j).2[i]? = some (u, x) ∧
    (edge_swap A E i j).2[j]? = some (v, y) ∧
    ∀ k : Nat, k ≠ i → k ≠ j → (edge_swap A E i j).2[k]? = E[k]? := by
  obtain ⟨hnd, hbij, hsimple⟩ := hInv
  push_neg at h1 h2 h3 h4
  obtain ⟨huv, hxy⟩ := h1
  obtain ⟨hux, hvy⟩ := h2
  have wux : A u x = 0 := by omega
  have wvy : A v y = 0 := by omega
  have memuv : (u, v) ∈ E := List.mem_iff_getElem?.2 ⟨i, hIu⟩
  have wuv0 : A u v ≠ 0 := (hbij (u, v)).1 memuv
  have wuv1 : A u v = 1 := by omega
  have hvx : v ≠ x := by
    rintro rfl
    omega
  have hi : i < E.length := by
    by_contra h
    rw [List.getElem?_eq_none (by omega)] at hIu
    cases hIu
  have hj : j < E.length := by
    by_contra h
    rw [List.getElem?_eq_none (by omega)] at hJx
    cases hJx
  rw [edge_swap_accepted hIu hJx huv hxy hux hvy (by omega) (by omega) wux wvy]
  refine ⟨?_, ?_, ?_, ?_, ?_, ?_, ?_⟩
  · show write (write (write (write A u v 0) x y 0) u x 1) v y 1 u v = 0
    simp [write_quad_apply, huv, hvx, hux]
  · show write (write (write (write A u v 0) x y 0) u x 1) v y 1 x y = 0
    simp [write_quad_apply, Ne.symm hvx, Ne.symm hux]
  · show write (write (write (write A u v 0) x y 0) u x 1) v y 1 u x = 1
    simp [write_quad_apply, huv]
  · show write (write (write (write A u v 0) x y 0) u x 1) v y 1 v y = 1
    simp [write_quad_apply]
  · show ((E.set i (u, x)).set j (v, y))[i]? = some (u, x)
    rw [set_set_getElem? E i j (u, x) (v, y) hij hi hj i, if_neg hij, if_pos rfl]
  · show ((E.set i (u, x)).set j (v, y))[j]? = some (v, y)
    rw [set_set_getElem? E i j (u, x) (v, y) hij hi hj j, if_pos rfl]
  · intro k hki hkj
    show ((E.set i (u, x)).set j (v, y))[k]? = E[k]?
    rw [set_set_getElem? E i j (u, x) (v, y) hij hi hj k, if_neg hkj, if_neg hki]

theorem C8_accepted_swap_postcondition_witness :
    Inv fourCycleA fourCycleE ∧
    ((edge_swap fourCycleA fourCycleE 0 5).1 0 1 = 0 ∧
     (edge_swap fourCycleA fourCycleE 0 5).1 2 3 = 0 ∧
     (edge_swap fourCycleA fourCycleE 0 5).1 0 2 = 1 ∧
     (edge_swap fourCycleA fourCycleE 0 5).1 1 3 = 1 ∧
     (edge_swap fourCycleA fourCycleE 0 5).2[0]? = some (0, 2) ∧
     (edge_swap fourCycleA fourCycleE 0 5).2[5]? = some (1, 3) ∧
     ∀ k : Nat, k ≠ 0 → k ≠ 5 →
       (edge_swap fourCycleA fourCycleE 0 5).2[k]? = fourCycleE[k]?) :=
  ⟨by decide,
    C8_accepted_swap_postcondition fourCycleA fourCycleE (by decide) 0 5
      (by decide) 0 1 2 3 (by decide) (by decide) (by decide) (by decide)
      (by decide) (by decide)⟩

/-- C9 counterexample: as stated, the claim fails.  `run(n_swaps=0, seed=0)`
does not return the input state: `np.random.randint(0)` raises `ValueError`
(`low >= high`), because the code draws a number below `seed` instead of
seeding the generator. -/
theorem C9_zero_step_seed_zero_raises :
    swap_edges_run (fourCycleA, fourCycleE) 0 0 [] = RunResult.valueError ∧
    swap_edges_run (fourCycleA, fourCycleE) 0 0 [] ≠
      RunResult.ok fourCycleA fourCycleE := by
  refine ⟨by decide, by decide⟩

/-- C9 (amended): for every state and every *positive* seed,
`run(n_swaps=0, seed=s)` returns the adjacency structure and edge list
unchanged; for `seed ≤ 0` the call raises `ValueError` instead. -/
theorem C9_zero_step_identity {n : Nat} (s : State n) (seed : Int)
    (hseed : 1 ≤ seed) (draws : List (Nat × Nat)) :
    swap_edges_run s 0 seed draws = RunResult.ok s.1 s.2 := by
  unfold swap_edges_run
  rw [if_neg (by omega), if_neg (by omega)]
  rfl

theorem C9_zero_step_identity_witness :
    (1 : Int) ≤ 1 ∧
    swap_edges_run (fourCycleA, fourCycleE) 0 1 [] =
      RunResult.ok fourCycleA fourCycleE :=
  ⟨by decide, C9_zero_step_identity (fourCycleA, fourCycleE) 1 (by decide) []⟩

/-- C10: every trial — accepted or rejected — preserves each vertex's total
degree (row sum plus column sum), and the edge-list length (the number of
nonzero cells, by C5) is constant across the whole run. -/
theorem C10_total_degree_and_edge_count_invariant {n : Nat} (A : Adj n)
    (E : List (Edge n)) (hInv : Inv A E) (i j : Nat)
    (hi : i < E.length) (hj : j < E.length) (hij : i ≠ j) :
    (∀ a, totalDegree (edge_swap A E i j).1 a = totalDegree A a) ∧
    ∀ draws : List (Nat × Nat),
      (swap_edges (A, E) draws).2.length = E.length :=
  ⟨fun a => edge_swap_totalDegree ⟨hInv.1, hInv.2.1, hInv.2.2⟩ hi hj hij a,
   fun draws => swap_edges_length draws (A, E)⟩

theorem C10_total_degree_and_edge_count_invariant_witness :
    Inv fourCycleA fourCycleE ∧
    ((∀ a, totalDegree (edge_swap fourCycleA fourCycleE 0 5).1 a =
        totalDegree fourCycleA a) ∧
     ∀ draws : List (Nat × Nat),
       (swap_edges (fourCycleA, fourCycleE) draws).2.length =
         fourCycleE.length) :=
  ⟨by decide,
    C10_total_degree_and_edge_count_invariant fourCycleA fourCycleE
      (by decide) 0 5 (by decide) (by decide) (by decide)⟩

end EdgeSwap
